import Mathlib

set_option maxRecDepth 100000

/-!
Verification development for a bilingual lesson-to-PDF service
(`src/index.ts`).  The pipeline is embedded shallowly over `List Char`:

* `escapeHtml`            — entity escaping of user text (lines 21-23);
* `extractRowsFromTableHTML` — regex-style tolerant row extraction
  (lines 26-57), modelled by explicit left-to-right scanners that follow
  the semantics of the JavaScript regexes used by the source;
* `normalize`             — the map/filter/emptiness check of the request
  handler (lines 164-171);
* `buildHtmlDoc`          — the two-column markup renderer (lines 59-141);
* `renderRequest`         — the browser-singleton lifecycle of the
  handler's try/catch (lines 146-196), as explicit state passing.
-/

namespace RawPdf

/-- Strings are modelled as lists of characters. -/
abbrev Str := List Char

/-- Lower-casing used for the case-insensitive regex flags. -/
def lowc (c : Char) : Char := c.toLower

/-- The JavaScript whitespace class used by the regex class and by
String.prototype.trim. -/
def isJsWs (c : Char) : Bool :=
  let n := c.toNat
  n == 32 || n == 9 || n == 10 || n == 11 || n == 12 || n == 13 ||
  n == 0xA0 || n == 0x1680 || (decide (0x2000 ≤ n) && decide (n ≤ 0x200A)) ||
  n == 0x2028 || n == 0x2029 || n == 0x202F || n == 0x205F ||
  n == 0x3000 || n == 0xFEFF

/-- Case-insensitive literal-prefix test: the pattern is given in lower
case and compared against the lower-cased input. -/
def startsWithCI : Str → Str → Bool
  | [], _ => true
  | _ :: _, [] => false
  | p :: ps, c :: cs => (lowc c == p) && startsWithCI ps cs

/-- Case-sensitive literal-prefix test. -/
def swPlain : Str → Str → Bool
  | [], _ => true
  | _ :: _, [] => false
  | p :: ps, c :: cs => (c == p) && swPlain ps cs

/-- Consume characters up to and including the first `>` — the
behaviour of the regex piece `[^>]*>`. -/
def afterGt : Str → Option Str
  | [] => none
  | c :: rest => if c == '>' then some rest else afterGt rest

/-- Match the regex piece `<name[^>]*>` (case-insensitive) at the head
of the input, returning the remainder after the closing `>`. -/
def matchOpen (nm : Str) (s : Str) : Option Str :=
  if startsWithCI ('<' :: nm) s then afterGt (s.drop (nm.length + 1)) else none

/-- Lazy search for the literal closing tag (case-insensitive): returns
the text before its first occurrence and the remainder after it —
the behaviour of `([\s\S]*?)close`. -/
def findClose (close : Str) : Str → Option (Str × Str)
  | [] => none
  | c :: rest =>
    if startsWithCI close (c :: rest) then some ([], (c :: rest).drop close.length)
    else
      match findClose close rest with
      | some (pre, post) => some (c :: pre, post)
      | none => none

/-- One pass of a JavaScript global-regex loop, fueled: at each position
try `step`; on a match emit its output and resume after the match, else
advance one character, emitting `miss` of it (the copied character of a
`String.replace`, or nothing for an `exec` loop).  The fuel is only a
termination device; `scanAll` always supplies enough. -/
def scanStep {α : Type} (step : Str → Option (List α × Str)) (miss : Char → List α) :
    Nat → Str → List α
  | _, [] => []
  | 0, _ :: _ => []
  | fuel + 1, c :: rest =>
    match step (c :: rest) with
    | some (out, rem) => out ++ scanStep step miss fuel rem
    | none => miss c ++ scanStep step miss fuel rest

/-- Run a global-regex scan over the whole input. -/
def scanAll {α : Type} (step : Str → Option (List α × Str)) (miss : Char → List α)
    (s : Str) : List α :=
  scanStep step miss s.length s

/-- A step consumes part of the input whenever it matches. -/
def StepDec {α : Type} (step : Str → Option (List α × Str)) : Prop :=
  ∀ t out rem, step t = some (out, rem) → rem.length < t.length

/-- Match `<br\s*\/?>` (case-insensitive) at the head of the input. -/
def matchBr (s : Str) : Option Str :=
  if startsWithCI ['<', 'b', 'r'] s then
    match (s.drop 3).dropWhile isJsWs with
    | '/' :: '>' :: rem => some rem
    | '>' :: rem => some rem
    | _ => none
  else none

/-- Replacement step for `/<br\s*\/?>/gi → "\n"`. -/
def brStep (s : Str) : Option (List Char × Str) :=
  (matchBr s).map (fun rem => (['\n'], rem))

/-- Match `<[^>]+>` at the head of the input. -/
def matchTag : Str → Option Str
  | '<' :: c :: rest => if c == '>' then none else afterGt (c :: rest)
  | _ => none

/-- Replacement step for `/<[^>]+>/g → ""`. -/
def tagStep (s : Str) : Option (List Char × Str) :=
  (matchTag s).map (fun rem => (([] : List Char), rem))

/-- Step for a block regex `<nm[^>]*>([\s\S]*?)close`: on success yields
the captured content and resumes after the closing tag. -/
def blockStep (nm close : Str) (s : Str) : Option (List Str × Str) :=
  match matchOpen nm s with
  | none => none
  | some after =>
    match findClose close after with
    | none => none
    | some (content, rem) => some ([content], rem)

/-- All non-overlapping `<nm ...>…close` blocks, in document order —
the `while (re.exec(..))` loops of the source. -/
def scanBlocks (nm close : Str) (s : Str) : List Str :=
  scanAll (blockStep nm close) (fun _ => []) s

/-- First `<tbody ...>…</tbody>` region, if any —
`html.match(/<tbody[^>]*>([\s\S]*?)<\/tbody>/i)` (line 28). -/
def findTbody (s : Str) : Option Str :=
  (scanBlocks "tbody".data "</tbody>".data s).head?

/-- `.replace(/<br\s*\/?>/gi, "\n")` (line 39). -/
def replaceBr (s : Str) : Str := scanAll brStep (fun c => [c]) s

/-- `.replace(/<[^>]+>/g, "")` (line 40). -/
def stripTags (s : Str) : Str := scanAll tagStep (fun c => [c]) s

/-- Whitespace-run collapsing, carrying whether the previous character
was inside a run. -/
def collapseAux : Bool → Str → Str
  | _, [] => []
  | inWs, c :: rest =>
    if isJsWs c then
      (if inWs then collapseAux true rest else ' ' :: collapseAux true rest)
    else c :: collapseAux false rest

/-- `.replace(/\s+/g, " ")` (line 41). -/
def collapseWs (s : Str) : Str := collapseAux false s

/-- `String.prototype.trim` (line 42). -/
def jsTrim (s : Str) : Str :=
  ((s.dropWhile isJsWs).reverse.dropWhile isJsWs).reverse

/-- Per-cell normalization (lines 38-42): line-break markers to
newlines, strip tags, collapse whitespace, trim. -/
def normCell (s : Str) : Str := jsTrim (collapseWs (stripTags (replaceBr s)))

/-- A glossary row: serial, English, Hindi (line 17). -/
structure Row where
  sno : Str
  en : Str
  hi : Str
deriving DecidableEq

/-- The normalized `<td>` cells of one `<tr>` block (lines 34-44). -/
def cellsOfTr (b : Str) : List Str :=
  (scanBlocks "td".data "</td>".data b).map normCell

/-- Row emission from a cell list (lines 45-54): at least three cells,
first three JS-truthy (non-empty), retaining the first three (the
source re-trims them when building the row object). -/
def rowOfCells : List Str → Option Row
  | s :: e :: h :: _ =>
    if s = [] ∨ e = [] ∨ h = [] then none
    else some { sno := jsTrim s, en := jsTrim e, hi := jsTrim h }
  | _ => none

/-- Row produced by one `<tr>` block, if any. -/
def rowOfTr (b : Str) : Option Row := rowOfCells (cellsOfTr b)

/-- Rows of a scan scope: every `<tr>` block in order, rows that fail
the cell test silently skipped. -/
def trRows (scope : Str) : List Row :=
  (scanBlocks "tr".data "</tr>".data scope).filterMap rowOfTr

/-- `extractRowsFromTableHTML` (lines 26-57): restrict to the first
`<tbody>` region when present, else scan the whole fragment. -/
def extractRowsFromTableHTML (html : Str) : List Row :=
  match findTbody html with
  | some content => trRows content
  | none => trRows html

/-- An input card: section title plus HTML fragment (the request's
`cards[].title` / `cards[].description`, lines 7-10). -/
structure Card where
  title : Str
  description : Str
deriving DecidableEq

/-- A section of the canonical document (line 18). -/
structure Section where
  name : Str
  rows : List Row
deriving DecidableEq

/-- The canonical document model (line 19). -/
structure Normalized where
  title : Str
  sections : List Section
deriving DecidableEq

/-- The handler's emptiness error message (line 170). -/
def emptyMsg : Str := "No rows extracted from provided HTML.".data

/-- Normalization step of the handler (lines 164-171): one section per
card, keep only sections with rows, fail when none remain. -/
def normalize (title : Str) (cards : List Card) : Except Str Normalized :=
  let sections :=
    (cards.map fun c =>
        ({ name := c.title, rows := extractRowsFromTableHTML c.description } : Section)).filter
      fun s => decide (0 < s.rows.length)
  if sections.isEmpty then Except.error emptyMsg
  else Except.ok { title := title, sections := sections }

/-- `escapeHtml`'s per-character replacement table (line 22). -/
def escChar (c : Char) : Str :=
  if c = '&' then "&amp;".data
  else if c = '<' then "&lt;".data
  else if c = '>' then "&gt;".data
  else if c = '"' then "&quot;".data
  else [c]

/-- `escapeHtml` (lines 21-23): global replacement of `& < > "` by
their named entities. -/
def escapeHtml (s : Str) : Str := (s.map escChar).flatten

/-- `splitRows` (lines 63-66): first `ceil(n/2)` rows left, rest right. -/
def splitRows (rows : List Row) : List Row × List Row :=
  let mid := (rows.length + 1) / 2
  (rows.take mid, rows.drop mid)

/-- Fixed markup before the first copy of the title (line 68-72). -/
def docPre1 : Str :=
  "<!doctype html>\n<html lang=\"en\">\n<head>\n<meta charset=\"utf-8\">\n<title>".data

/-- The style sheet of the document shell (lines 74-106). -/
def styleCss : Str :=
  "  /* Tight printable page with thin margins to utilize space */\n  @page \x7b size: A4; margin: 8mm; \x7d\n\n".data ++
  "  /* Keep text font sizes; optimize spacing and layout */\n  body \x7b font-family: \"Noto Sans\", system-ui, -apple-system, Segoe UI, Roboto, Arial, sans-serif; color:#111; \x7d\n  h1 \x7b font-size: 18px; margin: 0 0 6px; \x7d\n  h2 \x7b font-size: 14px; margin: 8px 0 6px; \x7d\n\n".data ++
  "  /* Two-column layout for each section to double visible items */\n  .section \x7b break-inside: avoid; margin: 0 0 6px; \x7d\n  .twocol \x7b\n    column-count: 2;\n    column-gap: 10mm;\n  \x7d\n  .pane \x7b break-inside: avoid; margin: 0 0 6px; \x7d\n\n".data ++
  "  /* Tables remain bilingual with 3 columns: S.No. | English | Hindi */\n  table \x7b width: 100%; border-collapse: collapse; table-layout: fixed; margin: 0 0 6px; \x7d\n  th, td \x7b border: 0.5px solid #ddd; padding: 4px 6px; vertical-align: top; \x7d\n  th \x7b background: #f3f3f3; font-weight: 600; font-size: 11px; \x7d\n  td \x7b font-size: 12.5px; line-height: 1.35; \x7d\n  .hin \x7b font-family: \"Noto Sans Devanagari\",\"Noto Sans\",Mangal,\"Hind\",Arial,sans-serif; font-size: 13.5px; line-height: 1.35; \x7d\n\n".data ++
  "  /* Column widths tuned for narrower panes without changing text sizes */\n  col.sno \x7b width: 9%; \x7d\n  col.eng \x7b width: 45%; \x7d\n  col.hin \x7b width: 46%; \x7d\n\n".data ++
  "  /* Allow rows to break across pages; avoid large gaps at page bottom */\n  tr, thead, tbody \x7b break-inside: auto; page-break-inside: auto; \x7d\n  table \x7b page-break-inside: auto; \x7d\n".data

/-- Fixed markup between the title-tag copy and the heading copy of the
title (lines 72-109). -/
def docPre2 : Str :=
  "</title>\n<link href=\"https://fonts.googleapis.com/css2?family=Noto+Sans:wght@400;600&family=Noto+Sans+Devanagari:wght@400;600&display=swap\" rel=\"stylesheet\">\n<style>\n".data ++
  styleCss ++ "</style>\n</head>\n<body>\n<h1>".data

/-- Fixed markup between the heading and the section list (line 109). -/
def docMid : Str := "</h1>\n".data

/-- Fixed closing markup (line 140). -/
def docSuf : Str := "\n</body></html>".data

/-- Row template pieces (lines 117-123). -/
def rowPre : Str := "\n          <tr>\n            <td>".data

/-- Markup between the serial and English cells. -/
def rowMid1 : Str := "</td>\n            <td>".data

/-- Markup between the English and Hindi cells. -/
def rowMid2 : Str := "</td>\n            <td class=\"hin\">".data

/-- Markup closing a rendered row. -/
def rowSuf : Str := "</td>\n          </tr>\n        ".data

/-- Table opening: colgroup and header row (lines 112-116). -/
def tableHead : Str :=
  "\n    <table>\n      <colgroup><col class=\"sno\"><col class=\"eng\"><col class=\"hin\"></colgroup>\n      <thead><tr><th>S.No.</th><th>English</th><th>Hindi</th></tr></thead>\n      <tbody>\n        ".data

/-- Table closing markup (lines 124-126). -/
def tableFoot : Str := "\n      </tbody>\n    </table>\n  ".data

/-- Section opening up to the name (lines 127-129). -/
def secPre : Str := "\n  <div class=\"section\">\n    <h2>".data

/-- Markup between the section name and the left pane (lines 129-132). -/
def secMid1 : Str :=
  "</h2>\n    <div class=\"twocol\">\n      <div class=\"pane\">\n        ".data

/-- Markup between the left and right panes (lines 132-135). -/
def secMid2 : Str := "\n      </div>\n      <div class=\"pane\">\n        ".data

/-- Markup closing a section (lines 135-138). -/
def secSuf : Str := "\n      </div>\n    </div>\n  </div>".data

/-- One rendered data row (lines 117-123). -/
def rowHtml (r : Row) : Str :=
  rowPre ++ escapeHtml r.sno ++ rowMid1 ++ escapeHtml r.en ++ rowMid2 ++
    escapeHtml r.hi ++ rowSuf

/-- One rendered pane table (lines 112-126). -/
def tableHtml (rows : List Row) : Str :=
  tableHead ++ (rows.map rowHtml).flatten ++ tableFoot

/-- One rendered section: heading plus the two panes (lines 110-138). -/
def sectionHtml (s : Section) : Str :=
  secPre ++ escapeHtml s.name ++ secMid1 ++ tableHtml (splitRows s.rows).1 ++
    secMid2 ++ tableHtml (splitRows s.rows).2 ++ secSuf

/-- `buildHtmlDoc` (lines 59-141). -/
def buildHtmlDoc (d : Normalized) : Str :=
  docPre1 ++ escapeHtml d.title ++ docPre2 ++ escapeHtml d.title ++ docMid ++
    (d.sections.map sectionHtml).flatten ++ docSuf

/-- Specification-side row template: the same markup with the fields
embedded verbatim, used to state that the renderer escapes every copied
string. -/
def rowHtmlRaw (r : Row) : Str :=
  rowPre ++ r.sno ++ rowMid1 ++ r.en ++ rowMid2 ++ r.hi ++ rowSuf

/-- Specification-side pane table with verbatim fields. -/
def tableHtmlRaw (rows : List Row) : Str :=
  tableHead ++ (rows.map rowHtmlRaw).flatten ++ tableFoot

/-- Specification-side section with verbatim fields. -/
def sectionHtmlRaw (s : Section) : Str :=
  secPre ++ s.name ++ secMid1 ++ tableHtmlRaw (splitRows s.rows).1 ++
    secMid2 ++ tableHtmlRaw (splitRows s.rows).2 ++ secSuf

/-- Specification-side document with verbatim fields. -/
def buildHtmlDocRaw (d : Normalized) : Str :=
  docPre1 ++ d.title ++ docPre2 ++ d.title ++ docMid ++
    (d.sections.map sectionHtmlRaw).flatten ++ docSuf

/-- Escape every field of a row. -/
def escapeRow (r : Row) : Row :=
  { sno := escapeHtml r.sno, en := escapeHtml r.en, hi := escapeHtml r.hi }

/-- Escape the name and every row of a section. -/
def escapeSection (s : Section) : Section :=
  { name := escapeHtml s.name, rows := s.rows.map escapeRow }

/-- Escape every user-controlled string of a document. -/
def escapeNormalized (d : Normalized) : Normalized :=
  { title := escapeHtml d.title, sections := d.sections.map escapeSection }

/-- A character that cannot break out of markup text. -/
def safeChar (c : Char) : Bool := !(c == '<' || c == '>' || c == '"')

/-- Every ampersand is the start of one of the four named entities. -/
def ampOkAux : Str → Bool
  | [] => true
  | c :: rest =>
    (if c = '&' then
       swPlain "amp;".data rest || swPlain "lt;".data rest ||
         swPlain "gt;".data rest || swPlain "quot;".data rest
     else true) && ampOkAux rest

/-- Layout strategies of the specification (§4.3). -/
inductive LayoutConfig where
  | singleColumn
  | twoColumn
deriving DecidableEq

/-- Modelled from the spec: the repository keeps near-duplicate renderer
variants of which only the two-column one is under `src/`; the
single-column variant renders one three-column table per section inside
the section division, without the two-pane wrapper (§4.3). -/
def sectionHtmlSingle (s : Section) : Str :=
  secPre ++ escapeHtml s.name ++ "</h2>".data ++ tableHtml s.rows ++ "\n  </div>".data

/-- Modelled from the spec: the document shell around single-column
sections (§4.3). -/
def buildHtmlDocSingle (d : Normalized) : Str :=
  docPre1 ++ escapeHtml d.title ++ docPre2 ++ escapeHtml d.title ++ docMid ++
    (d.sections.map sectionHtmlSingle).flatten ++ docSuf

/-- Modelled from the spec: `render(doc, layout)` — the layout strategy
is an explicit configuration value selecting between the single-column
and two-column renderers (§4.3, §9). -/
def render (d : Normalized) (layout : LayoutConfig) : Str :=
  match layout with
  | LayoutConfig.twoColumn => buildHtmlDoc d
  | LayoutConfig.singleColumn => buildHtmlDocSingle d

/-- State of the render resource manager: the cached engine instance
(line 146) and a counter issuing fresh instance identities. -/
structure EngineState where
  browser : Option Nat
  nextId : Nat
deriving DecidableEq

/-- Outcome of one `/pdf` render attempt. -/
inductive PdfOutcome where
  | pdf (instanceId : Nat)
  | failure
deriving DecidableEq

/-- `getBrowser` (lines 147-154): reuse the cached instance or launch a
fresh one. -/
def getBrowser (st : EngineState) : EngineState × Nat :=
  match st.browser with
  | some b => (st, b)
  | none => ({ browser := some st.nextId, nextId := st.nextId + 1 }, st.nextId)

/-- The try/catch around rendering (lines 175-196): on success return
the PDF from the acquired instance; on any engine failure close and
discard the cached instance and report a generic failure, without
retrying. -/
def renderRequest (st : EngineState) (engineOk : Bool) : EngineState × PdfOutcome :=
  let p := getBrowser st
  if engineOk then (p.1, PdfOutcome.pdf p.2)
  else ({ p.1 with browser := none }, PdfOutcome.failure)

/-- The section a card contributes, if its fragment yields any rows —
the per-card behaviour of the handler's map/filter (lines 164-167). -/
def secOf (c : Card) : Option Section :=
  if extractRowsFromTableHTML c.description = [] then none
  else some { name := c.title, rows := extractRowsFromTableHTML c.description }

/-- The header row emitted at the top of every pane table (line 115). -/
def theadMarkup : Str :=
  "<thead><tr><th>S.No.</th><th>English</th><th>Hindi</th></tr></thead>".data

/-- A concrete one-row section. -/
def exampleSection : Section :=
  { name := "Greetings".data,
    rows := [{ sno := "1".data, en := "Hello".data, hi := "Namaste".data }] }

/-- A concrete document used to exhibit behaviour at a specific input. -/
def exampleDoc : Normalized :=
  { title := "Lesson 22".data, sections := [exampleSection] }

theorem afterGt_length {s r : Str} (h : afterGt s = some r) : r.length < s.length := by
  induction s with
  | nil => simp [afterGt] at h
  | cons c rest ih =>
    by_cases hc : c = '>'
    · simp [afterGt, hc] at h
      subst h
      simp
    · simp [afterGt, hc] at h
      exact Nat.lt_trans (ih h) (by simp)

theorem startsWithCI_length : ∀ {p s : Str}, startsWithCI p s = true → p.length ≤ s.length := by
  intro p
  induction p with
  | nil => intro s _; simp
  | cons x ps ih =>
    intro s h
    cases s with
    | nil => simp [startsWithCI] at h
    | cons c cs =>
      simp only [startsWithCI, Bool.and_eq_true] at h
      simpa using Nat.succ_le_succ (ih h.2)

theorem matchOpen_length {nm s after : Str} (h : matchOpen nm s = some after) :
    after.length < s.length := by
  unfold matchOpen at h
  split at h
  · rename_i hsw
    have h1 := startsWithCI_length hsw
    have h2 := afterGt_length h
    simp at h1
    simp [List.length_drop] at h2
    omega
  · exact absurd h (by simp)

theorem findClose_length {close : Str} : ∀ {s pre post : Str},
    findClose close s = some (pre, post) → post.length ≤ s.length := by
  intro s
  induction s with
  | nil => intro pre post h; simp [findClose] at h
  | cons c rest ih =>
    intro pre post h
    unfold findClose at h
    split at h
    · simp only [Option.some.injEq, Prod.mk.injEq] at h
      rw [← h.2]
      simp only [List.length_drop]
      exact Nat.sub_le _ _
    · cases hfc : findClose close rest with
      | none => rw [hfc] at h; simp at h
      | some pr =>
        rw [hfc] at h
        obtain ⟨p, q⟩ := pr
        simp only [Option.some.injEq, Prod.mk.injEq] at h
        have := ih hfc
        rw [← h.2]
        simp
        omega

theorem blockStep_dec (nm close : Str) : StepDec (blockStep nm close) := by
  intro t out rem h
  unfold blockStep at h
  cases hmo : matchOpen nm t with
  | none => simp [hmo] at h
  | some after =>
    simp only [hmo] at h
    cases hfc : findClose close after with
    | none => simp [hfc] at h
    | some pr =>
      obtain ⟨content, rem'⟩ := pr
      simp only [hfc, Option.some.injEq, Prod.mk.injEq] at h
      have h1 := matchOpen_length hmo
      have h2 := findClose_length hfc
      rw [← h.2]
      omega

theorem brStep_dec : StepDec brStep := by
  intro t out rem h
  simp only [brStep, Option.map_eq_some'] at h
  obtain ⟨r, hr, hrr⟩ := h
  simp only [Prod.mk.injEq] at hrr
  rw [← hrr.2]
  unfold matchBr at hr
  split at hr
  · rename_i hsw
    have hlen := startsWithCI_length hsw
    simp only [List.length_cons, List.length_nil] at hlen
    have hdw : ((t.drop 3).dropWhile isJsWs).length ≤ t.length - 3 := by
      have := ((t.drop 3).dropWhile_sublist isJsWs).length_le
      simpa using this
    split at hr
    · rename_i heq
      simp only [Option.some.injEq] at hr
      rw [← hr]
      have hL := congrArg List.length heq
      simp only [List.length_cons] at hL
      omega
    · rename_i heq
      simp only [Option.some.injEq] at hr
      rw [← hr]
      have hL := congrArg List.length heq
      simp only [List.length_cons] at hL
      omega
    · simp at hr
  · simp at hr

theorem tagStep_dec : StepDec tagStep := by
  intro t out rem h
  simp only [tagStep, Option.map_eq_some'] at h
  obtain ⟨r, hr, hrr⟩ := h
  simp only [Prod.mk.injEq] at hrr
  rw [← hrr.2]
  unfold matchTag at hr
  split at hr
  · split at hr
    · simp at hr
    · have := afterGt_length hr
      simp only [List.length_cons] at this ⊢
      omega
  · simp at hr

theorem scanStep_congr {α : Type} {step : Str → Option (List α × Str)}
    {miss : Char → List α} (hdec : StepDec step) :
    ∀ (f1 f2 : Nat) (s : Str), s.length ≤ f1 → s.length ≤ f2 →
      scanStep step miss f1 s = scanStep step miss f2 s := by
  intro f1
  induction f1 with
  | zero =>
    intro f2 s h1 _
    have hs : s = [] := List.eq_nil_of_length_eq_zero (Nat.le_zero.mp h1)
    subst hs
    cases f2 <;> simp [scanStep]
  | succ n ih =>
    intro f2 s h1 h2
    cases s with
    | nil => cases f2 <;> simp [scanStep]
    | cons c rest =>
      cases f2 with
      | zero => simp at h2
      | succ m =>
        simp only [scanStep]
        cases hstep : step (c :: rest) with
        | some pr =>
          obtain ⟨out, rem⟩ := pr
          have hlt := hdec _ _ _ hstep
          simp only [List.length_cons] at h1 h2 hlt
          dsimp only
          rw [ih m rem (by omega) (by omega)]
        | none =>
          simp only [List.length_cons] at h1 h2
          dsimp only
          rw [ih m rest (by omega) (by omega)]

theorem scanAll_cons_some {α : Type} {step : Str → Option (List α × Str)}
    {miss : Char → List α} (hdec : StepDec step) {c : Char} {rest out rem}
    (h : step (c :: rest) = some (out, rem)) :
    scanAll step miss (c :: rest) = out ++ scanAll step miss rem := by
  unfold scanAll
  have hlt := hdec _ _ _ h
  simp only [List.length_cons] at hlt ⊢
  simp only [scanStep, h]
  rw [scanStep_congr hdec rest.length rem.length rem (by omega) (by omega)]

theorem scanAll_cons_none {α : Type} {step : Str → Option (List α × Str)}
    {miss : Char → List α} {c : Char} {rest}
    (h : step (c :: rest) = none) :
    scanAll step miss (c :: rest) = miss c ++ scanAll step miss rest := by
  unfold scanAll
  simp only [List.length_cons, scanStep, h]

theorem scanAll_append_skip {α : Type} {step : Str → Option (List α × Str)}
    {miss : Char → List α} (hmiss : ∀ c, miss c = []) :
    ∀ (a s : Str), (∀ i, i < a.length → step ((a ++ s).drop i) = none) →
      scanAll step miss (a ++ s) = scanAll step miss s := by
  intro a
  induction a with
  | nil => intro s _; simp
  | cons c a' ih =>
    intro s h
    have h0 : step (c :: (a' ++ s)) = none := by
      have := h 0 (by simp)
      simpa using this
    rw [List.cons_append, scanAll_cons_none h0, hmiss]
    simp only [List.nil_append]
    exact ih s (fun i hi => by
      have := h (i + 1) (by simp; omega)
      simpa using this)

theorem findClose_append {close : Str} :
    ∀ (a s : Str), (∀ i, i < a.length → startsWithCI close ((a ++ s).drop i) = false) →
      findClose close (a ++ s) =
        (findClose close s).map (fun pr => (a ++ pr.1, pr.2)) := by
  intro a
  induction a with
  | nil =>
    intro s _
    simp only [List.nil_append]
    cases findClose close s with
    | none => simp
    | some pr => simp
  | cons c a' ih =>
    intro s h
    have h0 : startsWithCI close (c :: (a' ++ s)) = false := by
      have := h 0 (by simp)
      simpa using this
    rw [List.cons_append]
    simp only [findClose, h0, Bool.false_eq_true, if_false]
    rw [ih s (fun i hi => by
      have := h (i + 1) (by simp; omega)
      simpa using this)]
    cases findClose close s with
    | none => simp
    | some pr => simp

theorem startsWithCI_refl_append :
    ∀ (p b : Str), p.map lowc = p → startsWithCI p (p ++ b) = true := by
  intro p
  induction p with
  | nil => intro b _; simp [startsWithCI]
  | cons x ps ih =>
    intro b hp
    simp only [List.map_cons, List.cons.injEq] at hp
    simp only [List.cons_append, startsWithCI, hp.1, beq_self_eq_true, Bool.true_and]
    exact ih b hp.2

theorem findClose_hit {close s : Str} (hne : close ≠ [])
    (h : startsWithCI close s = true) :
    findClose close s = some ([], s.drop close.length) := by
  cases s with
  | nil =>
    cases close with
    | nil => exact absurd rfl hne
    | cons x xs => simp [startsWithCI] at h
  | cons c rest => simp [findClose, h]

theorem matchOpen_hit {nm rest : Str} (h : ('<' :: nm).map lowc = '<' :: nm) :
    matchOpen nm (('<' :: nm) ++ '>' :: rest) = some rest := by
  unfold matchOpen
  rw [startsWithCI_refl_append _ _ h]
  simp only [if_true]
  rw [List.drop_left' (by simp)]
  simp [afterGt]

theorem matchOpen_tbody (rest : Str) :
    matchOpen "tbody".data ("<tbody>".data ++ rest) = some rest := by
  have e : "<tbody>".data ++ rest = ('<' :: "tbody".data) ++ '>' :: rest := by
    rw [show "<tbody>".data = ('<' :: "tbody".data) ++ ['>'] from by decide,
      List.append_assoc]
    rfl
  rw [e]
  exact matchOpen_hit (by decide)

theorem findClose_tbody {content post : Str}
    (h2 : ∀ i, i < content.length →
      startsWithCI "</tbody>".data ((content ++ ("</tbody>".data ++ post)).drop i) = false) :
    findClose "</tbody>".data (content ++ ("</tbody>".data ++ post)) =
      some (content, post) := by
  rw [findClose_append content _ h2]
  rw [findClose_hit (by decide) (startsWithCI_refl_append _ post (by decide))]
  simp only [Option.map_some']
  rw [List.drop_left]
  simp

theorem scanAll_tbody_hit {content post : Str}
    (h2 : ∀ i, i < content.length →
      startsWithCI "</tbody>".data ((content ++ ("</tbody>".data ++ post)).drop i) = false) :
    scanAll (blockStep "tbody".data "</tbody>".data) (fun _ => [])
        ("<tbody>".data ++ (content ++ ("</tbody>".data ++ post)))
      = content :: scanAll (blockStep "tbody".data "</tbody>".data) (fun _ => []) post := by
  have hstep : blockStep "tbody".data "</tbody>".data
      ("<tbody>".data ++ (content ++ ("</tbody>".data ++ post))) = some ([content], post) := by
    unfold blockStep
    rw [matchOpen_tbody]
    dsimp only
    rw [findClose_tbody h2]
  have e : "<tbody>".data ++ (content ++ ("</tbody>".data ++ post)) =
      '<' :: ("tbody>".data ++ (content ++ ("</tbody>".data ++ post))) := by
    rw [show "<tbody>".data = '<' :: "tbody>".data from by decide]
    rfl
  rw [e] at hstep ⊢
  rw [scanAll_cons_some (blockStep_dec _ _) hstep]
  rfl

theorem findTbody_region {pre content post : Str}
    (h1 : ∀ i, i < pre.length → matchOpen "tbody".data
      ((pre ++ ("<tbody>".data ++ (content ++ ("</tbody>".data ++ post)))).drop i) = none)
    (h2 : ∀ i, i < content.length → startsWithCI "</tbody>".data
      ((content ++ ("</tbody>".data ++ post)).drop i) = false) :
    findTbody (pre ++ ("<tbody>".data ++ (content ++ ("</tbody>".data ++ post)))) =
      some content := by
  unfold findTbody scanBlocks
  rw [scanAll_append_skip (fun _ => rfl) pre _ (fun i hi => by
    have := h1 i hi
    unfold blockStep
    rw [this])]
  rw [scanAll_tbody_hit h2]
  rfl

/-- A fragment decomposed around its first `<tbody>` region is scanned
only inside that region. -/
theorem extract_region {pre content post : Str}
    (h1 : ∀ i, i < pre.length → matchOpen "tbody".data
      ((pre ++ ("<tbody>".data ++ (content ++ ("</tbody>".data ++ post)))).drop i) = none)
    (h2 : ∀ i, i < content.length → startsWithCI "</tbody>".data
      ((content ++ ("</tbody>".data ++ post)).drop i) = false) :
    extractRowsFromTableHTML (pre ++ ("<tbody>".data ++ (content ++ ("</tbody>".data ++ post))))
      = trRows content := by
  unfold extractRowsFromTableHTML
  rw [findTbody_region h1 h2]

theorem dropWhile_dropWhile (p : Char → Bool) (l : Str) :
    (l.dropWhile p).dropWhile p = l.dropWhile p := by
  cases h : l.dropWhile p with
  | nil => simp
  | cons c rest =>
    have hc : p c = false := by
      have := List.head?_dropWhile_not p l
      rw [h] at this
      simpa using this
    rw [List.dropWhile_cons_of_neg (by simp [hc])]

theorem getLast?_dropWhile (p : Char → Bool) (l : Str) (h : l.dropWhile p ≠ []) :
    (l.dropWhile p).getLast? = l.getLast? := by
  induction l with
  | nil => simp at h
  | cons c rest ih =>
    by_cases hc : p c
    · rw [List.dropWhile_cons_of_pos hc] at h ⊢
      rw [ih h]
      cases rest with
      | nil => simp [List.dropWhile] at h
      | cons d ds => simp
    · rw [List.dropWhile_cons_of_neg hc]

theorem dropWhile_of_head_neg {p : Char → Bool} {l : Str}
    (h : ∀ c, l.head? = some c → p c = false) : l.dropWhile p = l := by
  cases l with
  | nil => rfl
  | cons c rest =>
    have := h c rfl
    rw [List.dropWhile_cons_of_neg (by simp [this])]

theorem jsTrim_idem (s : Str) : jsTrim (jsTrim s) = jsTrim s := by
  unfold jsTrim
  have hbr : ((s.dropWhile isJsWs).reverse.dropWhile isJsWs).reverse.dropWhile isJsWs =
      ((s.dropWhile isJsWs).reverse.dropWhile isJsWs).reverse := by
    cases hbe : (s.dropWhile isJsWs).reverse.dropWhile isJsWs with
    | nil => simp
    | cons x xs =>
      apply dropWhile_of_head_neg
      intro c hc
      rw [List.head?_reverse] at hc
      rw [← hbe] at hc
      have hbne : (s.dropWhile isJsWs).reverse.dropWhile isJsWs ≠ [] := by
        rw [hbe]; simp
      rw [getLast?_dropWhile isJsWs (s.dropWhile isJsWs).reverse hbne] at hc
      rw [List.getLast?_reverse] at hc
      have hnot := List.head?_dropWhile_not isJsWs s
      rw [hc] at hnot
      simpa using hnot
  rw [hbr, List.reverse_reverse, dropWhile_dropWhile]

theorem jsTrim_normCell (x : Str) : jsTrim (normCell x) = normCell x := by
  unfold normCell
  exact jsTrim_idem _

theorem collapseAux_mem : ∀ {b : Bool} {s : Str} {c : Char}, c ∈ collapseAux b s →
    c = ' ' ∨ isJsWs c = false := by
  intro b s
  induction s generalizing b with
  | nil => intro c h; simp [collapseAux] at h
  | cons d rest ih =>
    intro c h
    by_cases hd : isJsWs d
    · rw [collapseAux, if_pos hd] at h
      by_cases hb : b
      · subst hb
        simp only [if_true] at h
        exact ih h
      · simp only [hb, if_false] at h
        rcases List.mem_cons.mp h with h' | h'
        · exact Or.inl h'
        · exact ih h'
    · rw [collapseAux, if_neg hd] at h
      rcases List.mem_cons.mp h with h' | h'
      · subst h'
        exact Or.inr (by simpa using hd)
      · exact ih h'

theorem mem_jsTrim {c : Char} {t : Str} (h : c ∈ jsTrim t) : c ∈ t := by
  unfold jsTrim at h
  rw [List.mem_reverse] at h
  have h1 := (List.dropWhile_sublist isJsWs).subset h
  rw [List.mem_reverse] at h1
  exact (List.dropWhile_sublist isJsWs).subset h1

theorem normCell_ws {x : Str} {c : Char} (h : c ∈ normCell x) :
    c = ' ' ∨ isJsWs c = false :=
  collapseAux_mem (mem_jsTrim h)

theorem replaceBr_br (t : Str) : replaceBr ("<br>".data ++ t) = '\n' :: replaceBr t := by
  have hstep : brStep ("<br>".data ++ t) = some (['\n'], t) := rfl
  have e : ("<br>".data ++ t : Str) = '<' :: ("br>".data ++ t) := rfl
  rw [e] at hstep ⊢
  unfold replaceBr
  rw [scanAll_cons_some brStep_dec hstep]
  rfl

theorem replaceBr_brSlash (t : Str) : replaceBr ("<br/>".data ++ t) = '\n' :: replaceBr t := by
  have hstep : brStep ("<br/>".data ++ t) = some (['\n'], t) := rfl
  have e : ("<br/>".data ++ t : Str) = '<' :: ("br/>".data ++ t) := rfl
  rw [e] at hstep ⊢
  unfold replaceBr
  rw [scanAll_cons_some brStep_dec hstep]
  rfl

theorem escapeHtml_cons (c : Char) (s : Str) :
    escapeHtml (c :: s) = escChar c ++ escapeHtml s := by
  unfold escapeHtml
  simp

theorem escapeHtml_safe (s : Str) : (escapeHtml s).all safeChar = true := by
  induction s with
  | nil => rfl
  | cons c rest ih =>
    rw [escapeHtml_cons, List.all_append, ih, Bool.and_true]
    unfold escChar
    split_ifs with h1 h2 h3 h4
    · decide
    · decide
    · decide
    · decide
    · simp [safeChar, h2, h3, h4]

theorem swPlain_append (p b : Str) : swPlain p (p ++ b) = true := by
  induction p with
  | nil => rfl
  | cons c cs ih => simp [swPlain, ih]

theorem ampOkAux_cons_ne {c : Char} (h : ¬ c = '&') (rest : Str) :
    ampOkAux (c :: rest) = ampOkAux rest := by
  simp [ampOkAux, h]

theorem ampOkAux_append_no_amp {p : Str} (hp : ∀ c ∈ p, ¬ c = '&') (rest : Str) :
    ampOkAux (p ++ rest) = ampOkAux rest := by
  induction p with
  | nil => rfl
  | cons c cs ih =>
    rw [List.cons_append, ampOkAux_cons_ne (hp c (by simp)) _,
      ih (fun d hd => hp d (by simp [hd]))]

theorem ampOkAux_escChar (c : Char) (rest : Str) :
    ampOkAux (escChar c ++ rest) = ampOkAux rest := by
  unfold escChar
  split_ifs with h1 h2 h3 h4
  · rw [show ("&amp;".data ++ rest : Str) = '&' :: ("amp;".data ++ rest) from rfl]
    rw [show ampOkAux ('&' :: ("amp;".data ++ rest)) =
        ((swPlain "amp;".data ("amp;".data ++ rest) || swPlain "lt;".data ("amp;".data ++ rest) ||
          swPlain "gt;".data ("amp;".data ++ rest) || swPlain "quot;".data ("amp;".data ++ rest)) &&
          ampOkAux ("amp;".data ++ rest)) from by simp [ampOkAux]]
    rw [swPlain_append]
    simp only [Bool.true_or, Bool.true_and]
    exact ampOkAux_append_no_amp (by decide) rest
  · rw [show ("&lt;".data ++ rest : Str) = '&' :: ("lt;".data ++ rest) from rfl]
    rw [show ampOkAux ('&' :: ("lt;".data ++ rest)) =
        ((swPlain "amp;".data ("lt;".data ++ rest) || swPlain "lt;".data ("lt;".data ++ rest) ||
          swPlain "gt;".data ("lt;".data ++ rest) || swPlain "quot;".data ("lt;".data ++ rest)) &&
          ampOkAux ("lt;".data ++ rest)) from by simp [ampOkAux]]
    rw [swPlain_append]
    simp only [Bool.true_or, Bool.or_true, Bool.true_and]
    exact ampOkAux_append_no_amp (by decide) rest
  · rw [show ("&gt;".data ++ rest : Str) = '&' :: ("gt;".data ++ rest) from rfl]
    rw [show ampOkAux ('&' :: ("gt;".data ++ rest)) =
        ((swPlain "amp;".data ("gt;".data ++ rest) || swPlain "lt;".data ("gt;".data ++ rest) ||
          swPlain "gt;".data ("gt;".data ++ rest) || swPlain "quot;".data ("gt;".data ++ rest)) &&
          ampOkAux ("gt;".data ++ rest)) from by simp [ampOkAux]]
    rw [swPlain_append]
    simp only [Bool.true_or, Bool.or_true, Bool.true_and]
    exact ampOkAux_append_no_amp (by decide) rest
  · rw [show ("&quot;".data ++ rest : Str) = '&' :: ("quot;".data ++ rest) from rfl]
    rw [show ampOkAux ('&' :: ("quot;".data ++ rest)) =
        ((swPlain "amp;".data ("quot;".data ++ rest) || swPlain "lt;".data ("quot;".data ++ rest) ||
          swPlain "gt;".data ("quot;".data ++ rest) || swPlain "quot;".data ("quot;".data ++ rest)) &&
          ampOkAux ("quot;".data ++ rest)) from by simp [ampOkAux]]
    rw [swPlain_append]
    simp only [Bool.true_or, Bool.or_true, Bool.true_and]
    exact ampOkAux_append_no_amp (by decide) rest
  · rw [show (([c] ++ rest : Str)) = c :: rest from rfl, ampOkAux_cons_ne h1]

theorem escapeHtml_ampOk (s : Str) : ampOkAux (escapeHtml s) = true := by
  induction s with
  | nil => rfl
  | cons c rest ih => rw [escapeHtml_cons, ampOkAux_escChar, ih]

theorem tableHtml_raw (rows : List Row) :
    tableHtml rows = tableHtmlRaw (rows.map escapeRow) := by
  unfold tableHtml tableHtmlRaw
  rw [List.map_map]
  rfl

theorem sectionHtml_raw (s : Section) :
    sectionHtml s = sectionHtmlRaw (escapeSection s) := by
  have h1 : (escapeSection s).rows = s.rows.map escapeRow := rfl
  have h2 : (escapeSection s).name = escapeHtml s.name := rfl
  unfold sectionHtml sectionHtmlRaw
  rw [h1, h2]
  unfold splitRows
  simp only [List.length_map]
  rw [← List.map_take, ← List.map_drop, ← tableHtml_raw, ← tableHtml_raw]

theorem sectionsHtml_raw (l : List Section) :
    l.map sectionHtml = (l.map escapeSection).map sectionHtmlRaw := by
  induction l with
  | nil => rfl
  | cons a t ih => simp only [List.map_cons, sectionHtml_raw, ih]

theorem buildHtmlDoc_raw (d : Normalized) :
    buildHtmlDoc d = buildHtmlDocRaw (escapeNormalized d) := by
  unfold buildHtmlDoc buildHtmlDocRaw escapeNormalized
  rw [sectionsHtml_raw]

theorem cellsOfTr_trimmed (b : Str) : ∀ x ∈ cellsOfTr b, jsTrim x = x := by
  intro x hx
  unfold cellsOfTr at hx
  rcases List.mem_map.mp hx with ⟨y, _, rfl⟩
  exact jsTrim_normCell y

theorem rowOfCells_iff {cells : List Str} (hc : ∀ x ∈ cells, jsTrim x = x) (r : Row) :
    rowOfCells cells = some r ↔
      3 ≤ cells.length ∧ cells.getD 0 [] ≠ [] ∧ cells.getD 1 [] ≠ [] ∧
        cells.getD 2 [] ≠ [] ∧
        r = { sno := cells.getD 0 [], en := cells.getD 1 [], hi := cells.getD 2 [] } := by
  match cells with
  | [] => simp [rowOfCells]
  | [a] => simp [rowOfCells]
  | [a, b] => simp [rowOfCells]
  | a :: b :: c :: rest =>
    have ha := hc a (by simp)
    have hb := hc b (by simp)
    have hcc := hc c (by simp)
    simp only [rowOfCells]
    by_cases h : a = [] ∨ b = [] ∨ c = []
    · rw [if_pos h]
      simp only [List.getD_cons_zero, List.getD_cons_succ]
      constructor
      · intro he
        exact Option.noConfusion he
      · rintro ⟨_, h1, h2, h3, _⟩
        rcases h with h | h | h
        · exact absurd h h1
        · exact absurd h h2
        · exact absurd h h3
    · rw [if_neg h]
      push_neg at h
      obtain ⟨h1, h2, h3⟩ := h
      simp only [Option.some.injEq, List.getD_cons_zero, List.getD_cons_succ,
        List.length_cons]
      rw [ha, hb, hcc]
      constructor
      · intro he
        exact ⟨by omega, h1, h2, h3, he.symm⟩
      · rintro ⟨_, _, _, _, he⟩
        exact he.symm

theorem secOf_eq (c : Card) :
    secOf c = if extractRowsFromTableHTML c.description = [] then none
      else some { name := c.title, rows := extractRowsFromTableHTML c.description } := rfl

theorem normalize_sections (cards : List Card) :
    ((cards.map fun c =>
        ({ name := c.title, rows := extractRowsFromTableHTML c.description } : Section)).filter
      fun s => decide (0 < s.rows.length)) = cards.filterMap secOf := by
  induction cards with
  | nil => rfl
  | cons c cs ih =>
    simp only [List.map_cons, List.filter_cons, List.filterMap_cons, secOf_eq]
    by_cases h : extractRowsFromTableHTML c.description = []
    · simp [h, ih]
    · have hp : 0 < (extractRowsFromTableHTML c.description).length := List.length_pos.mpr h
      simp [h, hp, ih]

theorem normalize_eq (title : Str) (cards : List Card) :
    normalize title cards =
      if (cards.filterMap secOf).isEmpty then Except.error emptyMsg
      else Except.ok { title := title, sections := cards.filterMap secOf } := by
  unfold normalize
  rw [normalize_sections]

theorem filterMap_secOf_nil_iff (cards : List Card) :
    cards.filterMap secOf = [] ↔
      ∀ c ∈ cards, extractRowsFromTableHTML c.description = [] := by
  rw [List.filterMap_eq_nil_iff]
  constructor
  · intro h c hcmem
    have hs := h c hcmem
    unfold secOf at hs
    by_cases he : extractRowsFromTableHTML c.description = []
    · exact he
    · rw [if_neg he] at hs
      exact Option.noConfusion hs
  · intro h c hcmem
    unfold secOf
    rw [if_pos (h c hcmem)]

/-- C1: the escaper's output contains no raw `<`, `>` or `"`, every `&`
in it starts one of the four named entities, and the renderer factors
through escaping every user-controlled string of the document (the title
at both of its copies, every section name, and all three fields of every
row) before splicing it into the fixed markup skeleton. -/
theorem escaping_claim (s : Str) (d : Normalized) :
    (escapeHtml s).all safeChar = true ∧
    ampOkAux (escapeHtml s) = true ∧
    buildHtmlDoc d = buildHtmlDocRaw (escapeNormalized d) :=
  ⟨escapeHtml_safe s, escapeHtml_ampOk s, buildHtmlDoc_raw d⟩

/-- C2 counterexample: a `<br>` between letters ends up as a single
space, not a newline, in the extracted cell text — the claim that line
breaks remain present as newlines inside cell text is false on the code,
because the whitespace collapse replaces the inserted newline by a
space. -/
theorem br_newline_counterexample :
    extractRowsFromTableHTML
        "<table><tbody><tr><td>1</td><td>a<br>b</td><td>x</td></tr></tbody></table>".data
      = [{ sno := "1".data, en := "a b".data, hi := "x".data }] ∧
    ("a b".data.contains '\n') = false :=
  ⟨by decide, by decide⟩

/-- C2 amended: per-cell normalization replaces each line-break marker by
a single newline, then strips remaining tag markup, then collapses every
whitespace run — including those inserted newlines — to a single space
and trims the edges; a line break therefore ends up as a single space,
and the resulting cell text contains no whitespace character other than
a plain space. -/
theorem br_space_claim (s t : Str) :
    replaceBr ("<br>".data ++ t) = '\n' :: replaceBr t ∧
    replaceBr ("<br/>".data ++ t) = '\n' :: replaceBr t ∧
    normCell s = jsTrim (collapseWs (stripTags (replaceBr s))) ∧
    (normCell s).all (fun c => !isJsWs c || c == ' ') = true := by
  refine ⟨replaceBr_br t, replaceBr_brSlash t, rfl, ?_⟩
  rw [List.all_eq_true]
  intro c hcmem
  rcases normCell_ws hcmem with h | h
  · subst h
    simp
  · simp [h]

/-- C3: normalization fails with the emptiness error exactly when every
card's extracted row sequence is empty; otherwise it succeeds with one
section per row-yielding card, empty cards excluded entirely, in input
order (the `filterMap` form), every kept section non-empty. -/
theorem normalize_claim (title : Str) (cards : List Card) :
    (normalize title cards = Except.error emptyMsg ↔
      ∀ c ∈ cards, extractRowsFromTableHTML c.description = []) ∧
    ((¬ ∀ c ∈ cards, extractRowsFromTableHTML c.description = []) →
      normalize title cards =
          Except.ok { title := title, sections := cards.filterMap secOf } ∧
        cards.filterMap secOf ≠ [] ∧
        ∀ s ∈ cards.filterMap secOf, s.rows ≠ []) := by
  constructor
  · rw [normalize_eq]
    by_cases hE : (cards.filterMap secOf).isEmpty = true
    · rw [if_pos hE]
      exact ⟨fun _ => (filterMap_secOf_nil_iff cards).mp (List.isEmpty_iff.mp hE),
        fun _ => rfl⟩
    · rw [if_neg hE]
      constructor
      · intro hcontra
        exact Except.noConfusion hcontra
      · intro hall
        exact absurd (List.isEmpty_iff.mpr ((filterMap_secOf_nil_iff cards).mpr hall)) hE
  · intro hne
    have hnil : cards.filterMap secOf ≠ [] := by
      intro hcontra
      exact hne ((filterMap_secOf_nil_iff cards).mp hcontra)
    have hE : ¬ (cards.filterMap secOf).isEmpty = true := by
      intro h
      exact hnil (List.isEmpty_iff.mp h)
    refine ⟨by rw [normalize_eq, if_neg hE], hnil, ?_⟩
    intro s hs
    rcases List.mem_filterMap.mp hs with ⟨c, _, hsec2⟩
    rw [secOf_eq] at hsec2
    by_cases he : extractRowsFromTableHTML c.description = []
    · rw [if_pos he] at hsec2
      exact Option.noConfusion hsec2
    · rw [if_neg he] at hsec2
      simp only [Option.some.injEq] at hsec2
      rw [← hsec2]
      exact he

theorem normalize_claim_witness :
    normalize "T".data
        [{ title := "A".data, description := "<p>x</p>".data },
         { title := "B".data,
           description := "<tbody><tr><td>1</td><td>a</td><td>b</td></tr></tbody>".data }] =
      Except.ok ⟨"T".data, [⟨"B".data, [⟨"1".data, "a".data, "b".data⟩]⟩]⟩ := by
  have h := (normalize_claim "T".data
    [{ title := "A".data, description := "<p>x</p>".data },
     { title := "B".data,
       description := "<tbody><tr><td>1</td><td>a</td><td>b</td></tr></tbody>".data }]).2
    (by decide)
  exact h.1.trans (congrArg Except.ok (by decide))

/-- C4: a `<tr>` block found by the extractor yields a row exactly when
at least three `<td>` cells were found and the first three are non-empty
after normalization; the emitted row retains exactly the first three cell
values (serial, English, Hindi), extra cells are ignored, and every block
failing the test is silently skipped by the `filterMap` that builds the
row list, never an error. -/
theorem row_emission_claim (b : Str) (r : Row) :
    (rowOfTr b = some r ↔
      3 ≤ (cellsOfTr b).length ∧ (cellsOfTr b).getD 0 [] ≠ [] ∧
        (cellsOfTr b).getD 1 [] ≠ [] ∧ (cellsOfTr b).getD 2 [] ≠ [] ∧
        r = { sno := (cellsOfTr b).getD 0 [], en := (cellsOfTr b).getD 1 [],
              hi := (cellsOfTr b).getD 2 [] }) ∧
    (∀ scope : Str, trRows scope =
      (scanBlocks "tr".data "</tr>".data scope).filterMap rowOfTr) :=
  ⟨rowOfCells_iff (cellsOfTr_trimmed b) r, fun _ => rfl⟩

theorem row_emission_claim_witness :
    rowOfTr "<td>1</td><td>Hello</td><td>Namaste</td><td>extra</td>".data =
      some { sno := "1".data, en := "Hello".data, hi := "Namaste".data } ∧
    rowOfTr "<td>1</td><td>only</td>".data = none := by
  constructor
  · exact (row_emission_claim
      "<td>1</td><td>Hello</td><td>Namaste</td><td>extra</td>".data
      { sno := "1".data, en := "Hello".data, hi := "Namaste".data }).1.mpr (by decide)
  · decide

/-- C5: the two-column split gives the left pane the first `ceil(n/2)`
rows and the right pane the remaining `floor(n/2)`, in order, and their
concatenation is the original row sequence. -/
theorem split_rows_claim (rows : List Row) :
    (splitRows rows).1.length = (rows.length + 1) / 2 ∧
    (splitRows rows).2.length = rows.length / 2 ∧
    (splitRows rows).1 ++ (splitRows rows).2 = rows := by
  unfold splitRows
  refine ⟨?_, ?_, List.take_append_drop _ _⟩
  · simp only [List.length_take]
    omega
  · simp only [List.length_drop]
    omega

/-- C6: when a fragment decomposes around a first `<tbody>` region (no
tbody open tag matches inside the prefix, no close tag inside the
content), extraction scans exactly that region, so `<tr>`/`<td>` markup
in the prefix — such as header rows in a `<thead>` — contributes no
rows; and when no region exists the whole fragment is scanned. -/
theorem tbody_scoping_claim :
    (∀ pre content post : Str,
      (∀ i, i < pre.length → matchOpen "tbody".data
        ((pre ++ ("<tbody>".data ++ (content ++ ("</tbody>".data ++ post)))).drop i)
          = none) →
      (∀ i, i < content.length → startsWithCI "</tbody>".data
        ((content ++ ("</tbody>".data ++ post)).drop i) = false) →
      extractRowsFromTableHTML
          (pre ++ ("<tbody>".data ++ (content ++ ("</tbody>".data ++ post))))
        = trRows content) ∧
    (∀ html : Str, findTbody html = none →
      extractRowsFromTableHTML html = trRows html) := by
  constructor
  · intro pre content post h1 h2
    exact extract_region h1 h2
  · intro html h
    unfold extractRowsFromTableHTML
    rw [h]

theorem tbody_scoping_claim_witness :
    extractRowsFromTableHTML
        ("<thead><tr><td>No.</td><td>English</td><td>Hindi</td></tr></thead>".data ++
          ("<tbody>".data ++
            ("<tr><td>1</td><td>Hello</td><td>Namaste</td></tr>".data ++
              ("</tbody>".data ++ "</table>".data))))
      = trRows "<tr><td>1</td><td>Hello</td><td>Namaste</td></tr>".data ∧
    trRows "<tr><td>1</td><td>Hello</td><td>Namaste</td></tr>".data =
      [{ sno := "1".data, en := "Hello".data, hi := "Namaste".data }] :=
  ⟨tbody_scoping_claim.1 _ _ _ (by decide) (by decide), by decide⟩

/-- C7: any failing render attempt reports a generic failure and clears
the cached engine instance; an immediately following successful attempt
acquires a freshly launched instance (its identity is the counter value,
distinct from any previously issued instance) rather than being blocked. -/
theorem engine_recovery_claim (st : EngineState) :
    (renderRequest st false).2 = PdfOutcome.failure ∧
    (renderRequest st false).1.browser = none ∧
    (renderRequest ((renderRequest st false).1) true).2 =
      PdfOutcome.pdf ((renderRequest st false).1.nextId) ∧
    (renderRequest ((renderRequest st false).1) true).1.browser =
      some ((renderRequest st false).1.nextId) ∧
    (∀ b, st.browser = some b → b < st.nextId →
      (renderRequest st false).1.nextId ≠ b) := by
  cases hb : st.browser with
  | none =>
    refine ⟨?_, ?_, ?_, ?_, ?_⟩ <;> simp [renderRequest, getBrowser, hb]
  | some b0 =>
    refine ⟨?_, ?_, ?_, ?_, ?_⟩ <;> simp [renderRequest, getBrowser, hb]
    omega

theorem engine_recovery_claim_witness :
    (renderRequest { browser := some 0, nextId := 1 } false).2 = PdfOutcome.failure ∧
    (renderRequest { browser := some 0, nextId := 1 } false).1.browser = none ∧
    (renderRequest ((renderRequest { browser := some 0, nextId := 1 } false).1) true).2 =
      PdfOutcome.pdf 1 ∧
    (renderRequest { browser := some 0, nextId := 1 } false).1.nextId ≠ 0 := by
  have h := engine_recovery_claim { browser := some 0, nextId := 1 }
  exact ⟨h.1, h.2.1, by rw [h.2.2.1]; rfl, h.2.2.2.2 0 rfl (by decide)⟩

/-- C8: the render operation takes an explicit layout configuration and
produces the two-column form for one value and the single-column form
for the other; the two forms differ on a concrete document. -/
theorem layout_config_claim (d : Normalized) :
    render d LayoutConfig.twoColumn = buildHtmlDoc d ∧
    render d LayoutConfig.singleColumn = buildHtmlDocSingle d ∧
    render exampleDoc LayoutConfig.singleColumn ≠
      render exampleDoc LayoutConfig.twoColumn := by
  refine ⟨rfl, rfl, ?_⟩
  have hne : sectionHtmlSingle exampleSection ≠ sectionHtml exampleSection := by decide
  intro heq
  apply hne
  have heq2 : buildHtmlDocSingle exampleDoc = buildHtmlDoc exampleDoc := heq
  unfold buildHtmlDocSingle buildHtmlDoc exampleDoc at heq2
  simp only [List.map_cons, List.map_nil, List.flatten_cons, List.flatten_nil,
    List.append_nil, List.append_assoc, List.append_cancel_left_eq,
    List.append_cancel_right_eq] at heq2
  exact heq2

theorem layout_config_claim_witness :
    render exampleDoc LayoutConfig.twoColumn = buildHtmlDoc exampleDoc :=
  (layout_config_claim exampleDoc).1

/-- C9: extraction scans only the first `<tbody>` region: rows inside a
second region contribute nothing to the result. -/
theorem first_tbody_only_claim :
    ∀ pre c1 mid c2 post : Str,
      (∀ i, i < pre.length → matchOpen "tbody".data
        ((pre ++ ("<tbody>".data ++ (c1 ++ ("</tbody>".data ++
          (mid ++ ("<tbody>".data ++ (c2 ++ ("</tbody>".data ++ post)))))))).drop i)
          = none) →
      (∀ i, i < c1.length → startsWithCI "</tbody>".data
        ((c1 ++ ("</tbody>".data ++
          (mid ++ ("<tbody>".data ++ (c2 ++ ("</tbody>".data ++ post)))))).drop i)
          = false) →
      extractRowsFromTableHTML
          (pre ++ ("<tbody>".data ++ (c1 ++ ("</tbody>".data ++
            (mid ++ ("<tbody>".data ++ (c2 ++ ("</tbody>".data ++ post))))))))
        = trRows c1 := by
  intro pre c1 mid c2 post h1 h2
  exact extract_region h1 h2

theorem first_tbody_only_claim_witness :
    extractRowsFromTableHTML
        ("".data ++ ("<tbody>".data ++
          ("<tr><td>1</td><td>a</td><td>b</td></tr>".data ++ ("</tbody>".data ++
            ("".data ++ ("<tbody>".data ++
              ("<tr><td>2</td><td>c</td><td>d</td></tr>".data ++
                ("</tbody>".data ++ "".data))))))))
      = trRows "<tr><td>1</td><td>a</td><td>b</td></tr>".data ∧
    trRows "<tr><td>1</td><td>a</td><td>b</td></tr>".data =
      [{ sno := "1".data, en := "a".data, hi := "b".data }] :=
  ⟨first_tbody_only_claim _ _ _ _ _ (by decide) (by decide), by decide⟩

/-- C10: every rendered section consists of exactly two panes, each a
complete pane table; every pane table carries the three-column header
row, and for a one-row section the right pane is the table with header
and an empty body. -/
theorem two_panes_claim (s : Section) :
    sectionHtml s =
      secPre ++ escapeHtml s.name ++ secMid1 ++ tableHtml (splitRows s.rows).1 ++
        secMid2 ++ tableHtml (splitRows s.rows).2 ++ secSuf ∧
    (∀ rows : List Row, tableHtml rows =
        tableHead ++ (rows.map rowHtml).flatten ++ tableFoot ∧
      theadMarkup <:+: tableHtml rows) ∧
    (s.rows.length = 1 →
      (splitRows s.rows).2 = [] ∧
      tableHtml (splitRows s.rows).2 = tableHead ++ tableFoot) := by
  refine ⟨rfl, ?_, ?_⟩
  · intro rows
    refine ⟨rfl, ?_⟩
    have hdec : tableHead =
        "\n    <table>\n      <colgroup><col class=\"sno\"><col class=\"eng\"><col class=\"hin\"></colgroup>\n      ".data ++
          theadMarkup ++ "\n      <tbody>\n        ".data := by decide
    refine ⟨"\n    <table>\n      <colgroup><col class=\"sno\"><col class=\"eng\"><col class=\"hin\"></colgroup>\n      ".data,
      "\n      <tbody>\n        ".data ++ ((rows.map rowHtml).flatten ++ tableFoot), ?_⟩
    unfold tableHtml
    rw [hdec]
    simp [List.append_assoc]
  · intro h1
    have h2 : (splitRows s.rows).2 = [] := by
      unfold splitRows
      exact List.drop_of_length_le (by omega)
    refine ⟨h2, ?_⟩
    rw [h2]
    unfold tableHtml
    simp

theorem two_panes_claim_witness :
    (splitRows exampleSection.rows).2 = [] ∧
    tableHtml (splitRows exampleSection.rows).2 = tableHead ++ tableFoot :=
  (two_panes_claim exampleSection).2.2 rfl

end RawPdf
